import Mathlib

/-!
Verification of the version-range normalization engine of the
rustsec advisory toolchain (file rustsec/src/advisory/version_ranges.rs).

The module is shallowly embedded: Rust panics (assert!, todo!, unwrap,
unreachable!) are modelled as the value none of an Option-returning
function, and the semver crate data types are embedded directly.
Build metadata is elided from the Version structure: every version
constructed inside the embedded module carries empty build metadata
(comp_to_ver sets build to the default, increment clears it), and the
semantic-versioning precedence that the specification fixes for this
core ignores build metadata entirely.
-/

namespace VersionRanges

/-- Comparator induced by a linear order, used for the numeric and
string components of semantic versions. -/
def lcmp {α : Type} [LinearOrder α] (a b : α) : Ordering :=
  if a < b then Ordering.lt else if a = b then Ordering.eq else Ordering.gt

/-- One pre-release identifier of a semantic version: numeric or
alphanumeric, as in the semver crate. -/
inductive Identifier where
  | numeric (n : Nat)
  | alphanumeric (s : String)
deriving DecidableEq

/-- Precedence comparison of two pre-release identifiers: numeric
identifiers compare numerically and sort before alphanumeric ones;
alphanumeric identifiers compare lexically. -/
def Identifier.icmp : Identifier → Identifier → Ordering
  | Identifier.numeric a, Identifier.numeric b => lcmp a b
  | Identifier.numeric _, Identifier.alphanumeric _ => Ordering.lt
  | Identifier.alphanumeric _, Identifier.numeric _ => Ordering.gt
  | Identifier.alphanumeric a, Identifier.alphanumeric b => lcmp a b

/-- Lexicographic comparison of identifier sequences; a strict prefix
sorts before its extensions. -/
def identListCmp : List Identifier → List Identifier → Ordering
  | [], [] => Ordering.eq
  | [], _ :: _ => Ordering.lt
  | _ :: _, [] => Ordering.gt
  | x :: xs, y :: ys =>
    match x.icmp y with
    | Ordering.eq => identListCmp xs ys
    | o => o

/-- Comparison of the pre-release fields of two versions: an empty
field (a release) sorts after any non-empty field. -/
def preCmp (xs ys : List Identifier) : Ordering :=
  match xs, ys with
  | [], [] => Ordering.eq
  | [], _ :: _ => Ordering.gt
  | _ :: _, [] => Ordering.lt
  | x :: xs, y :: ys => identListCmp (x :: xs) (y :: ys)

/-- A semantic version: numeric major, minor and patch components plus
a sequence of pre-release identifiers. Build metadata is elided (see
the module docstring): it is empty on every version this engine
constructs and ignored by the precedence order the spec fixes. -/
structure Version where
  major : Nat
  minor : Nat
  patch : Nat
  pre : List Identifier
deriving DecidableEq

/-- Semantic-versioning precedence: compare major, minor, patch
numerically, then the pre-release fields. -/
def Version.compare (a b : Version) : Ordering :=
  match lcmp a.major b.major with
  | Ordering.eq =>
    match lcmp a.minor b.minor with
    | Ordering.eq =>
      match lcmp a.patch b.patch with
      | Ordering.eq => preCmp a.pre b.pre
      | o => o
    | o => o
  | o => o

/-- Strict precedence order on versions, the `<` used by the Rust
module through the semver crate. -/
def versionLt (a b : Version) : Bool :=
  match Version.compare a b with
  | Ordering.lt => true
  | _ => false

/-- One edge of an unaffected range, as in the Rust module. -/
inductive Bound where
  | Unbounded
  | Exclusive (v : Version)
  | Inclusive (v : Version)
deriving DecidableEq

/-- Returns just the version, ignoring whether the bound is inclusive
or exclusive (Bound::version in the source). -/
def Bound.version : Bound → Option Version
  | Bound.Unbounded => none
  | Bound.Exclusive v => some v
  | Bound.Inclusive v => some v

/-- True exactly on inclusive bounds. -/
def Bound.isInclusive : Bound → Bool
  | Bound.Inclusive _ => true
  | _ => false

/-- A range of unaffected versions (struct UnaffectedRange in the
source); the end field is renamed end_ because end is a Lean keyword. -/
structure UnaffectedRange where
  start : Bound
  end_ : Bound
deriving DecidableEq

/-- UnaffectedRange::is_valid from the source, with the if/else and
trailing match flattened into one match over the two bounds: either
bound unbounded is valid; otherwise the start version must be below
the end version, or the two versions equal with the bound pair being
one of (Exclusive, Inclusive), (Inclusive, Exclusive),
(Inclusive, Inclusive). -/
def UnaffectedRange.is_valid (r : UnaffectedRange) : Bool :=
  match r.start, r.end_ with
  | Bound.Unbounded, _ => true
  | _, Bound.Unbounded => true
  | Bound.Exclusive vs, Bound.Exclusive ve => versionLt vs ve
  | Bound.Exclusive vs, Bound.Inclusive ve => versionLt vs ve || decide (vs = ve)
  | Bound.Inclusive vs, Bound.Exclusive ve => versionLt vs ve || decide (vs = ve)
  | Bound.Inclusive vs, Bound.Inclusive ve => versionLt vs ve || decide (vs = ve)

/-- The helper less_or_equal nested inside UnaffectedRange::overlaps:
unbounded always reaches; distinct positions compare numerically;
equal positions reach only when both bounds are inclusive. -/
def less_or_equal (a b : Bound) : Bool :=
  match a.version, b.version with
  | some av, some bv =>
    if versionLt bv av then false
    else if bv = av then
      match a, b with
      | Bound.Inclusive _, Bound.Inclusive _ => true
      | _, _ => false
    else true
  | _, _ => true

/-- UnaffectedRange::overlaps from the source. The source first
asserts validity of both operands; every use below supplies validity,
so the body is embedded directly. -/
def UnaffectedRange.overlaps (r other : UnaffectedRange) : Bool :=
  less_or_equal r.start other.end_ && less_or_equal other.start r.end_

/-- A half-open affected range in OSV form (struct OsvRange); the end
field is renamed end_ because end is a Lean keyword. -/
structure OsvRange where
  start : Option Version
  end_ : Option Version
deriving DecidableEq

/-- The increment function of the source: on a version without
pre-release identifiers it clears build metadata, increments the patch
component and appends the pre-release identifier 0 (the source builds
the result by serializing and re-parsing, which on a release version
with empty build metadata yields exactly this value); on a version
with pre-release identifiers the source hits todo!(), modelled as
none. -/
def increment (v : Version) : Option Version :=
  match v.pre with
  | [] => some { major := v.major, minor := v.minor, patch := v.patch + 1,
                 pre := [Identifier.numeric 0] }
  | _ :: _ => none

/-- Comparison operators of the semver crate (enum Op); the source
matches Exact, Caret, Greater, GreaterEq, Less, LessEq explicitly and
sends every other variant to todo!(). -/
inductive Op where
  | Exact
  | Greater
  | GreaterEq
  | Less
  | LessEq
  | Tilde
  | Caret
  | Wildcard
deriving DecidableEq

/-- One comparator clause of a version requirement (semver crate
Comparator): an operator, a major component and optional minor and
patch components, plus pre-release identifiers. -/
structure Comparator where
  op : Op
  major : Nat
  minor : Option Nat
  patch : Option Nat
  pre : List Identifier
deriving DecidableEq

/-- A raw version requirement (semver crate VersionReq): a list of
comparator clauses. -/
structure VersionReq where
  comparators : List Comparator
deriving DecidableEq

/-- comp_to_ver from the source: strips the operator from a
comparator, defaulting missing minor and patch components to zero and
discarding build metadata. -/
def comp_to_ver (c : Comparator) : Version :=
  { major := c.major, minor := c.minor.getD 0, patch := c.patch.getD 0,
    pre := c.pre }

/-- One iteration of the comparator loop in the From impl for
UnaffectedRange: Exact and the unhandled operators panic (todo!() or
panic!), a lower-bound operator panics if a lower bound is already
set, an upper-bound operator panics if an upper bound is already set;
otherwise the corresponding bound is installed. -/
def applyComp (result : UnaffectedRange) (c : Comparator) : Option UnaffectedRange :=
  match c.op with
  | Op.Exact => none
  | Op.Caret => none
  | Op.Tilde => none
  | Op.Wildcard => none
  | Op.Greater =>
    if result.start = Bound.Unbounded then
      some { result with start := Bound.Exclusive (comp_to_ver c) }
    else none
  | Op.GreaterEq =>
    if result.start = Bound.Unbounded then
      some { result with start := Bound.Inclusive (comp_to_ver c) }
    else none
  | Op.Less =>
    if result.end_ = Bound.Unbounded then
      some { result with end_ := Bound.Exclusive (comp_to_ver c) }
    else none
  | Op.LessEq =>
    if result.end_ = Bound.Unbounded then
      some { result with end_ := Bound.Inclusive (comp_to_ver c) }
    else none

/-- The comparator loop of the From impl, folded left to right with
panic propagation. -/
def applyComps (result : UnaffectedRange) : List Comparator → Option UnaffectedRange
  | [] => some result
  | c :: cs =>
    match applyComp result c with
    | none => none
    | some r => applyComps r cs

/-- The From impl converting a semver VersionReq into an
UnaffectedRange: asserts at most two comparators, runs the comparator
loop starting from the default fully-unbounded range, and finally
asserts validity of the result. -/
def from_req (input : VersionReq) : Option UnaffectedRange :=
  if input.comparators.length > 2 then none
  else
    match applyComps { start := Bound.Unbounded, end_ := Bound.Unbounded }
        input.comparators with
    | none => none
    | some result => if result.is_valid then some result else none

/-- The sort comparator passed to sort_unstable_by inside
unaffected_to_osv_ranges: an unbounded start sorts first, and the
comparator asserts that two bounded starts never carry equal versions
(modelled as none). -/
def sortKey (a b : UnaffectedRange) : Option Ordering :=
  match a.start.version, b.start.version with
  | none, _ => some Ordering.lt
  | some _, none => some Ordering.gt
  | some v1, some v2 =>
    if v1 = v2 then none else some (Version.compare v1 v2)

/-- Insertion of one element into an already sorted list, placing it
before the first element it does not exceed; a failing comparator
invocation aborts the sort. -/
def insertBy (x : UnaffectedRange) : List UnaffectedRange → Option (List UnaffectedRange)
  | [] => some [x]
  | y :: ys =>
    match sortKey x y with
    | none => none
    | some Ordering.gt =>
      match insertBy x ys with
      | none => none
      | some rest => some (y :: rest)
    | some _ => some (x :: y :: ys)

/-- The sort step of unaffected_to_osv_ranges, modelled as insertion
sort with the fallible comparator sortKey; on inputs where the
comparator is a total order this produces the sorted permutation that
sort_unstable_by produces. -/
def sortBy : List UnaffectedRange → Option (List UnaffectedRange)
  | [] => some []
  | x :: xs =>
    match sortBy xs with
    | none => none
    | some s => insertBy x s

/-- The overlap-verification double loop of unaffected_to_osv_ranges,
exactly as written in the source: the outer iterator runs over the
slice without its last element, the inner iterator over the slice
without its first element (so for three or more elements a middle
element is also paired with itself). -/
def overlapCheck (l : List UnaffectedRange) : Bool :=
  l.dropLast.all (fun a => (l.drop 1).all (fun b => !(a.overlaps b)))

/-- Conversion of the end bound of the earlier range of an adjacent
pair into the inclusive start of the gap range, exactly as in the
windows loop of the source: Unbounded is unreachable!(), an exclusive
end is incremented, an inclusive end is passed through. -/
def gapStartOf : Bound → Option Version
  | Bound.Unbounded => none
  | Bound.Exclusive v => increment v
  | Bound.Inclusive v => some v

/-- Conversion of the start bound of the later range of an adjacent
pair into the exclusive end of the gap range, exactly as in the
windows loop of the source: Unbounded is unreachable!(), an exclusive
start is passed through, an inclusive start is incremented. -/
def gapEndOf : Bound → Option Version
  | Bound.Unbounded => none
  | Bound.Exclusive v => some v
  | Bound.Inclusive v => increment v

/-- The head emission of unaffected_to_osv_ranges, applied to the
start bound of the first sorted range: nothing for Unbounded,
(None, increment v) for an exclusive start, (None, v) for an
inclusive start. -/
def headRange : Bound → Option (List OsvRange)
  | Bound.Unbounded => some []
  | Bound.Exclusive v =>
    (increment v).map (fun iv => [{ start := none, end_ := some iv }])
  | Bound.Inclusive v => some [{ start := none, end_ := some v }]

/-- The tail emission of unaffected_to_osv_ranges, applied to the end
bound of the last sorted range: nothing for Unbounded, (v, None) for
an exclusive end, (increment v, None) for an inclusive end. -/
def tailRange : Bound → Option (List OsvRange)
  | Bound.Unbounded => some []
  | Bound.Exclusive v => some [{ start := some v, end_ := none }]
  | Bound.Inclusive v =>
    (increment v).map (fun iv => [{ start := some iv, end_ := none }])

/-- The windows(2) loop of unaffected_to_osv_ranges: one gap range per
adjacent pair of the sorted list, in order, with panics propagated. -/
def gapRanges : List UnaffectedRange → Option (List OsvRange)
  | a :: b :: rest =>
    match gapStartOf a.end_ with
    | none => none
    | some s =>
      match gapEndOf b.start with
      | none => none
      | some e =>
        match gapRanges (b :: rest) with
        | none => none
        | some res => some ({ start := some s, end_ := some e } :: res)
  | _ => some []

/-- The complement generator unaffected_to_osv_ranges from the source:
assert every range valid, assert the list non-empty, run the overlap
double loop, sort by start bound, then emit the head range, the gap
ranges of the windows loop and the tail range, in that order. -/
def unaffected_to_osv_ranges (unaffected : List UnaffectedRange) : Option (List OsvRange) :=
  if !(unaffected.all UnaffectedRange.is_valid) then none
  else if unaffected.isEmpty then none
  else if !(overlapCheck unaffected) then none
  else
    match sortBy unaffected with
    | none => none
    | some [] => none
    | some (first :: rest) =>
      match headRange first.start, gapRanges (first :: rest),
        tailRange ((first :: rest).getLast (List.cons_ne_nil first rest)).end_ with
      | some h, some g, some t => some (h ++ g ++ t)
      | _, _, _ => none

/-- Boolean statement that every adjacent pair of the list is strictly
ascending under the sort comparator. -/
def sortedAdj : List UnaffectedRange → Bool
  | a :: b :: rest =>
    (decide (sortKey a b = some Ordering.lt)) && sortedAdj (b :: rest)
  | _ => true

/-- Validity as the specification words it: either bound Unbounded, or
the start position strictly below the end position, or equal positions
with at least one inclusive side. -/
def is_valid_spec (r : UnaffectedRange) : Prop :=
  r.start = Bound.Unbounded ∨ r.end_ = Bound.Unbounded ∨
  ∃ vs ve, r.start.version = some vs ∧ r.end_.version = some ve ∧
    (versionLt vs ve = true ∨
      (vs = ve ∧ (r.start.isInclusive = true ∨ r.end_.isInclusive = true)))

/-- True on the operators establishing a lower bound. -/
def Op.isLower : Op → Bool
  | Op.Greater => true
  | Op.GreaterEq => true
  | _ => false

/-- True on the operators establishing an upper bound. -/
def Op.isUpper : Op → Bool
  | Op.Less => true
  | Op.LessEq => true
  | _ => false

/-- True on the four comparator operators the normalizer supports. -/
def Op.supported (o : Op) : Bool := o.isLower || o.isUpper

/-- The range a requirement denotes, with the conflict checks elided:
each clause simply installs its bound over the default fully-unbounded
range. -/
def rangeOf (input : VersionReq) : UnaffectedRange :=
  input.comparators.foldl
    (fun r c =>
      match c.op with
      | Op.Greater => { r with start := Bound.Exclusive (comp_to_ver c) }
      | Op.GreaterEq => { r with start := Bound.Inclusive (comp_to_ver c) }
      | Op.Less => { r with end_ := Bound.Exclusive (comp_to_ver c) }
      | Op.LessEq => { r with end_ := Bound.Inclusive (comp_to_ver c) }
      | _ => r)
    { start := Bound.Unbounded, end_ := Bound.Unbounded }

/-! Order theory of the embedded precedence comparator. -/

theorem lcmp_self {α : Type} [LinearOrder α] (a : α) : lcmp a a = Ordering.eq := by
  simp [lcmp]

theorem lcmp_eq_iff {α : Type} [LinearOrder α] {a b : α} :
    lcmp a b = Ordering.eq ↔ a = b := by
  unfold lcmp
  split_ifs with h1 h2
  · simp only [reduceCtorEq, false_iff]
    exact ne_of_lt h1
  · simp [h2]
  · simp only [reduceCtorEq, false_iff]
    exact h2

theorem lcmp_lt_iff {α : Type} [LinearOrder α] {a b : α} :
    lcmp a b = Ordering.lt ↔ a < b := by
  unfold lcmp
  split_ifs with h1 h2
  · simp [h1]
  · simp only [reduceCtorEq, false_iff]
    simp [h2]
  · simp only [reduceCtorEq, false_iff]
    exact h1

theorem lcmp_gt_iff {α : Type} [LinearOrder α] {a b : α} :
    lcmp a b = Ordering.gt ↔ b < a := by
  unfold lcmp
  split_ifs with h1 h2
  · simp only [reduceCtorEq, false_iff]
    exact fun h => absurd h1 (not_lt_of_gt h)
  · simp only [reduceCtorEq, false_iff]
    simp [h2]
  · simp only [true_iff]
    exact lt_of_le_of_ne (le_of_not_lt h1) (fun h => h2 h.symm)

theorem Identifier.icmp_self (a : Identifier) : a.icmp a = Ordering.eq := by
  cases a <;> simp [Identifier.icmp, lcmp_self]

theorem Identifier.icmp_eq_iff {a b : Identifier} :
    a.icmp b = Ordering.eq ↔ a = b := by
  cases a <;> cases b <;> simp [Identifier.icmp, lcmp_eq_iff]

theorem Identifier.icmp_lt_trans {a b c : Identifier} :
    a.icmp b = Ordering.lt → b.icmp c = Ordering.lt → a.icmp c = Ordering.lt := by
  cases a <;> cases b <;> cases c <;>
    simp only [Identifier.icmp, lcmp_lt_iff, reduceCtorEq, false_implies,
      implies_true, true_implies] <;>
    intro h1 h2 <;>
    first
    | rfl
    | exact lt_trans h1 h2

theorem identListCmp_eq_iff :
    ∀ {xs ys : List Identifier}, identListCmp xs ys = Ordering.eq ↔ xs = ys
  | [], [] => by simp [identListCmp]
  | [], _ :: _ => by simp [identListCmp]
  | _ :: _, [] => by simp [identListCmp]
  | x :: xs, y :: ys => by
    cases h : x.icmp y with
    | eq =>
      have hxy : x = y := Identifier.icmp_eq_iff.1 h
      simp [identListCmp, hxy, Identifier.icmp_self, identListCmp_eq_iff]
    | lt =>
      simp only [identListCmp, h, reduceCtorEq, false_iff, List.cons.injEq, not_and]
      intro hxy
      rw [hxy, Identifier.icmp_self] at h
      exact absurd h (by simp)
    | gt =>
      simp only [identListCmp, h, reduceCtorEq, false_iff, List.cons.injEq, not_and]
      intro hxy
      rw [hxy, Identifier.icmp_self] at h
      exact absurd h (by simp)

theorem identListCmp_self (xs : List Identifier) : identListCmp xs xs = Ordering.eq :=
  identListCmp_eq_iff.2 rfl

theorem identListCmp_lt_trans :
    ∀ {xs ys zs : List Identifier}, identListCmp xs ys = Ordering.lt →
      identListCmp ys zs = Ordering.lt → identListCmp xs zs = Ordering.lt
  | [], [], _ => by simp [identListCmp]
  | [], _ :: _, [] => by simp [identListCmp]
  | [], _ :: _, _ :: _ => by simp [identListCmp]
  | _ :: _, [], _ => by simp [identListCmp]
  | _ :: _, _ :: _, [] => by simp [identListCmp]
  | x :: xs, y :: ys, z :: zs => by
    intro h1 h2
    cases hxy : x.icmp y <;> rw [identListCmp, hxy] at h1
    case gt => exact absurd h1 (by simp)
    case lt =>
      cases hyz : y.icmp z <;> rw [identListCmp, hyz] at h2
      case gt => exact absurd h2 (by simp)
      case lt =>
        rw [identListCmp, Identifier.icmp_lt_trans hxy hyz]
      case eq =>
        have : y = z := Identifier.icmp_eq_iff.1 hyz
        rw [identListCmp, ← this, hxy]
    case eq =>
      have hxy2 : x = y := Identifier.icmp_eq_iff.1 hxy
      cases hyz : y.icmp z <;> rw [identListCmp, hyz] at h2
      case gt => exact absurd h2 (by simp)
      case lt => rw [identListCmp, hxy2, hyz]
      case eq =>
        have hyz2 : y = z := Identifier.icmp_eq_iff.1 hyz
        rw [identListCmp, hxy2, hyz2, Identifier.icmp_self]
        exact identListCmp_lt_trans h1 h2

theorem preCmp_eq_iff {xs ys : List Identifier} :
    preCmp xs ys = Ordering.eq ↔ xs = ys := by
  cases xs <;> cases ys <;> simp [preCmp, identListCmp_eq_iff]

theorem preCmp_self (xs : List Identifier) : preCmp xs xs = Ordering.eq :=
  preCmp_eq_iff.2 rfl

theorem preCmp_lt_trans : ∀ {xs ys zs : List Identifier},
    preCmp xs ys = Ordering.lt → preCmp ys zs = Ordering.lt →
      preCmp xs zs = Ordering.lt
  | [], [], _, h, _ => nomatch h
  | [], _ :: _, _, h, _ => nomatch h
  | _ :: _, [], [], _, h => nomatch h
  | _ :: _, [], _ :: _, _, h => nomatch h
  | _ :: _, _ :: _, [], _, _ => rfl
  | _ :: _, _ :: _, _ :: _, h1, h2 => identListCmp_lt_trans h1 h2

theorem Version.compare_eq_iff {a b : Version} :
    Version.compare a b = Ordering.eq ↔ a = b := by
  obtain ⟨a1, a2, a3, a4⟩ := a
  obtain ⟨b1, b2, b3, b4⟩ := b
  simp only [Version.compare, Version.mk.injEq]
  cases h1 : lcmp a1 b1
  case lt =>
    simp only [reduceCtorEq, false_iff, not_and]
    intro e1
    subst e1
    rw [lcmp_self] at h1
    cases h1
  case gt =>
    simp only [reduceCtorEq, false_iff, not_and]
    intro e1
    subst e1
    rw [lcmp_self] at h1
    cases h1
  case eq =>
    have e1 : a1 = b1 := lcmp_eq_iff.1 h1
    cases h2 : lcmp a2 b2
    case lt =>
      simp only [reduceCtorEq, false_iff, not_and]
      intro _ e2
      subst e2
      rw [lcmp_self] at h2
      cases h2
    case gt =>
      simp only [reduceCtorEq, false_iff, not_and]
      intro _ e2
      subst e2
      rw [lcmp_self] at h2
      cases h2
    case eq =>
      have e2 : a2 = b2 := lcmp_eq_iff.1 h2
      cases h3 : lcmp a3 b3
      case lt =>
        simp only [reduceCtorEq, false_iff, not_and]
        intro _ _ e3
        subst e3
        rw [lcmp_self] at h3
        cases h3
      case gt =>
        simp only [reduceCtorEq, false_iff, not_and]
        intro _ _ e3
        subst e3
        rw [lcmp_self] at h3
        cases h3
      case eq =>
        have e3 : a3 = b3 := lcmp_eq_iff.1 h3
        simp [preCmp_eq_iff, e1, e2, e3]

theorem Version.compare_lt_unfold {a b : Version} :
    Version.compare a b = Ordering.lt ↔
      a.major < b.major ∨ (a.major = b.major ∧
        (a.minor < b.minor ∨ (a.minor = b.minor ∧
          (a.patch < b.patch ∨ (a.patch = b.patch ∧
            preCmp a.pre b.pre = Ordering.lt))))) := by
  obtain ⟨a1, a2, a3, a4⟩ := a
  obtain ⟨b1, b2, b3, b4⟩ := b
  simp only [Version.compare]
  cases h1 : lcmp a1 b1
  case lt =>
    have := lcmp_lt_iff.1 h1
    simp [this]
  case gt =>
    have hgt := lcmp_gt_iff.1 h1
    have h1ne : a1 ≠ b1 := fun h => absurd hgt (by simp [h])
    simp [reduceCtorEq, not_lt_of_gt hgt, h1ne]
  case eq =>
    have e1 : a1 = b1 := lcmp_eq_iff.1 h1
    cases h2 : lcmp a2 b2
    case lt =>
      have := lcmp_lt_iff.1 h2
      simp [e1, this]
    case gt =>
      have hgt := lcmp_gt_iff.1 h2
      have h2ne : a2 ≠ b2 := fun h => absurd hgt (by simp [h])
      simp [e1, reduceCtorEq, not_lt_of_gt hgt, h2ne]
    case eq =>
      have e2 : a2 = b2 := lcmp_eq_iff.1 h2
      cases h3 : lcmp a3 b3
      case lt =>
        have := lcmp_lt_iff.1 h3
        simp [e1, e2, this]
      case gt =>
        have hgt := lcmp_gt_iff.1 h3
        have h3ne : a3 ≠ b3 := fun h => absurd hgt (by simp [h])
        simp [e1, e2, reduceCtorEq, not_lt_of_gt hgt, h3ne]
      case eq =>
        have e3 : a3 = b3 := lcmp_eq_iff.1 h3
        simp [e1, e2, e3]

theorem Version.compare_lt_trans {a b c : Version} :
    Version.compare a b = Ordering.lt → Version.compare b c = Ordering.lt →
      Version.compare a c = Ordering.lt := by
  simp only [Version.compare_lt_unfold]
  intro h1 h2
  rcases h1 with h1 | ⟨e1, h1⟩
  · rcases h2 with h2 | ⟨f1, h2⟩
    · exact Or.inl (lt_trans h1 h2)
    · exact Or.inl (f1 ▸ h1)
  · rcases h2 with h2 | ⟨f1, h2⟩
    · exact Or.inl (by omega)
    · refine Or.inr ⟨e1.trans f1, ?_⟩
      rcases h1 with h1 | ⟨e2, h1⟩
      · rcases h2 with h2 | ⟨f2, h2⟩
        · exact Or.inl (lt_trans h1 h2)
        · exact Or.inl (f2 ▸ h1)
      · rcases h2 with h2 | ⟨f2, h2⟩
        · exact Or.inl (by omega)
        · refine Or.inr ⟨e2.trans f2, ?_⟩
          rcases h1 with h1 | ⟨e3, h1⟩
          · rcases h2 with h2 | ⟨f3, h2⟩
            · exact Or.inl (lt_trans h1 h2)
            · exact Or.inl (f3 ▸ h1)
          · rcases h2 with h2 | ⟨f3, h2⟩
            · exact Or.inl (by omega)
            · exact Or.inr ⟨e3.trans f3, preCmp_lt_trans h1 h2⟩

theorem versionLt_iff {a b : Version} :
    versionLt a b = true ↔ Version.compare a b = Ordering.lt := by
  unfold versionLt
  cases h : Version.compare a b <;> simp

theorem versionLt_irrefl (a : Version) : versionLt a a = false := by
  unfold versionLt
  rw [Version.compare_eq_iff.2 rfl]

theorem versionLt_trans {a b c : Version} :
    versionLt a b = true → versionLt b c = true → versionLt a c = true := by
  simp only [versionLt_iff]
  exact Version.compare_lt_trans

theorem versionLt_ne {a b : Version} : versionLt a b = true → a ≠ b := by
  intro h e
  subst e
  rw [versionLt_irrefl] at h
  cases h

theorem versionLt_asymm {a b : Version} :
    versionLt a b = true → versionLt b a = false := by
  intro h
  cases hc : versionLt b a
  · rfl
  · have h2 := versionLt_trans h hc
    rw [versionLt_irrefl] at h2
    cases h2

/-! Helper facts about the pre-release order used by the increment claims. -/

theorem preCmp_not_lt_zero : ∀ (xs : List Identifier),
    preCmp xs [Identifier.numeric 0] ≠ Ordering.lt
  | [] => by simp [preCmp]
  | Identifier.numeric n :: xs => by
    rcases Nat.eq_zero_or_pos n with h | h
    · subst h
      have hic : Identifier.icmp (Identifier.numeric 0) (Identifier.numeric 0) =
          Ordering.eq := Identifier.icmp_self _
      cases xs <;> simp [preCmp, identListCmp, hic]
    · have hic : Identifier.icmp (Identifier.numeric n) (Identifier.numeric 0) =
          Ordering.gt := lcmp_gt_iff.2 h
      simp [preCmp, identListCmp, hic]
  | Identifier.alphanumeric s :: xs => by
    simp [preCmp, identListCmp, Identifier.icmp]

theorem preCmp_nil_not_lt : ∀ (ys : List Identifier), preCmp [] ys ≠ Ordering.lt
  | [] => by simp [preCmp]
  | _ :: _ => by simp [preCmp]

/-! Claim theorems. -/

/-- C1 (code bug witness): on the two SafeRanges [0.1.0, 0.3.0] and
[1.1.0, 1.3.0] (both inclusive-inclusive) the complement generator of
the source emits the middle gap range (Some 0.3.0, Some 1.1.1-0) and
not the (Some 0.3.1-0, Some 1.1.0) that the claim (and the stated OSV
semantics of the module) requires: the windows loop of the source
converts an inclusive unaffected end into the gap start unchanged and
increments an inclusive unaffected start for the gap end, the exact
opposite of its own head and tail handling of the same conversions. -/
theorem c1_code_output :
    unaffected_to_osv_ranges
      [⟨Bound.Inclusive ⟨0,1,0,[]⟩, Bound.Inclusive ⟨0,3,0,[]⟩⟩,
       ⟨Bound.Inclusive ⟨1,1,0,[]⟩, Bound.Inclusive ⟨1,3,0,[]⟩⟩] =
      some [⟨none, some ⟨0,1,0,[]⟩⟩,
            ⟨some ⟨0,3,0,[]⟩, some ⟨1,1,1,[Identifier.numeric 0]⟩⟩,
            ⟨some ⟨1,3,1,[Identifier.numeric 0]⟩, none⟩] ∧
    unaffected_to_osv_ranges
      [⟨Bound.Inclusive ⟨0,1,0,[]⟩, Bound.Inclusive ⟨0,3,0,[]⟩⟩,
       ⟨Bound.Inclusive ⟨1,1,0,[]⟩, Bound.Inclusive ⟨1,3,0,[]⟩⟩] ≠
      some [⟨none, some ⟨0,1,0,[]⟩⟩,
            ⟨some ⟨0,3,1,[Identifier.numeric 0]⟩, some ⟨1,1,0,[]⟩⟩,
            ⟨some ⟨1,3,1,[Identifier.numeric 0]⟩, none⟩] := by
  exact ⟨by decide, by decide⟩

/-- C3 (code bug witness): three individually valid, pairwise
non-overlapping SafeRanges on which the complement generator
nevertheless fails fatally, because its overlap double loop pairs the
middle range with itself (the outer loop runs over all but the last
element, the inner over all but the first) and a non-degenerate range
overlaps itself. -/
theorem c3_disjoint_triple_fails :
    ([⟨Bound.Inclusive ⟨0,1,0,[]⟩, Bound.Inclusive ⟨0,2,0,[]⟩⟩,
      ⟨Bound.Inclusive ⟨0,3,0,[]⟩, Bound.Inclusive ⟨0,4,0,[]⟩⟩,
      ⟨Bound.Inclusive ⟨0,5,0,[]⟩, Bound.Inclusive ⟨0,6,0,[]⟩⟩] :
        List UnaffectedRange).all UnaffectedRange.is_valid = true ∧
    UnaffectedRange.overlaps
      ⟨Bound.Inclusive ⟨0,1,0,[]⟩, Bound.Inclusive ⟨0,2,0,[]⟩⟩
      ⟨Bound.Inclusive ⟨0,3,0,[]⟩, Bound.Inclusive ⟨0,4,0,[]⟩⟩ = false ∧
    UnaffectedRange.overlaps
      ⟨Bound.Inclusive ⟨0,3,0,[]⟩, Bound.Inclusive ⟨0,4,0,[]⟩⟩
      ⟨Bound.Inclusive ⟨0,1,0,[]⟩, Bound.Inclusive ⟨0,2,0,[]⟩⟩ = false ∧
    UnaffectedRange.overlaps
      ⟨Bound.Inclusive ⟨0,1,0,[]⟩, Bound.Inclusive ⟨0,2,0,[]⟩⟩
      ⟨Bound.Inclusive ⟨0,5,0,[]⟩, Bound.Inclusive ⟨0,6,0,[]⟩⟩ = false ∧
    UnaffectedRange.overlaps
      ⟨Bound.Inclusive ⟨0,5,0,[]⟩, Bound.Inclusive ⟨0,6,0,[]⟩⟩
      ⟨Bound.Inclusive ⟨0,1,0,[]⟩, Bound.Inclusive ⟨0,2,0,[]⟩⟩ = false ∧
    UnaffectedRange.overlaps
      ⟨Bound.Inclusive ⟨0,3,0,[]⟩, Bound.Inclusive ⟨0,4,0,[]⟩⟩
      ⟨Bound.Inclusive ⟨0,5,0,[]⟩, Bound.Inclusive ⟨0,6,0,[]⟩⟩ = false ∧
    UnaffectedRange.overlaps
      ⟨Bound.Inclusive ⟨0,5,0,[]⟩, Bound.Inclusive ⟨0,6,0,[]⟩⟩
      ⟨Bound.Inclusive ⟨0,3,0,[]⟩, Bound.Inclusive ⟨0,4,0,[]⟩⟩ = false ∧
    unaffected_to_osv_ranges
      [⟨Bound.Inclusive ⟨0,1,0,[]⟩, Bound.Inclusive ⟨0,2,0,[]⟩⟩,
       ⟨Bound.Inclusive ⟨0,3,0,[]⟩, Bound.Inclusive ⟨0,4,0,[]⟩⟩,
       ⟨Bound.Inclusive ⟨0,5,0,[]⟩, Bound.Inclusive ⟨0,6,0,[]⟩⟩] = none := by
  decide

/-- C4: on a version without pre-release identifiers, increment
returns the same major and minor, the patch incremented by one and the
single pre-release identifier 0; the result is strictly above the
input and no constructible version lies strictly between the two under
semantic-versioning precedence; on a version with pre-release
identifiers, increment fails fatally. -/
theorem increment_spec (v : Version) :
    (v.pre = [] →
      increment v = some ⟨v.major, v.minor, v.patch + 1, [Identifier.numeric 0]⟩) ∧
    (v.pre ≠ [] → increment v = none) ∧
    (∀ w, increment v = some w →
      versionLt v w = true ∧ ∀ u, versionLt v u = true → versionLt u w = false) := by
  refine ⟨?_, ?_, ?_⟩
  · intro h
    simp [increment, h]
  · intro h
    cases hp : v.pre with
    | nil => exact absurd hp h
    | cons a l => simp [increment, hp]
  · intro w hw
    cases hp : v.pre with
    | cons a l => simp [increment, hp] at hw
    | nil =>
      simp only [increment, hp] at hw
      injection hw with hw
      subst hw
      constructor
      · rw [versionLt_iff, Version.compare_lt_unfold]
        exact Or.inr ⟨rfl, Or.inr ⟨rfl, Or.inl (Nat.lt_succ_self _)⟩⟩
      · intro u hu
        cases hc : versionLt u _
        · rfl
        · exfalso
          rw [versionLt_iff, Version.compare_lt_unfold] at hu hc
          dsimp only at hc
          rcases hu with h1 | ⟨e1, h1⟩
          · rcases hc with h2 | ⟨f1, h2⟩
            · omega
            · omega
          · rcases hc with h2 | ⟨f1, h2⟩
            · omega
            · rcases h1 with h1 | ⟨e2, h1⟩
              · rcases h2 with h2 | ⟨f2, h2⟩
                · omega
                · omega
              · rcases h2 with h2 | ⟨f2, h2⟩
                · omega
                · rcases h1 with h1 | ⟨e3, h1⟩
                  · rcases h2 with h2 | ⟨f3, h2⟩
                    · omega
                    · exact preCmp_not_lt_zero _ h2
                  · rcases h2 with h2 | ⟨f3, h2⟩
                    · rw [hp] at h1
                      exact preCmp_nil_not_lt _ h1
                    · omega

/-- C4 witness: the theorem applied at the release version 1.2.3,
whose increment is 1.2.4-0 and strictly above it. -/
theorem increment_spec_witness :
    increment ⟨1,2,3,[]⟩ = some ⟨1,2,4,[Identifier.numeric 0]⟩ ∧
    versionLt ⟨1,2,3,[]⟩ ⟨1,2,4,[Identifier.numeric 0]⟩ = true := by
  have h := increment_spec ⟨1,2,3,[]⟩
  have h1 := h.1 rfl
  exact ⟨h1, (h.2.2 ⟨1,2,4,[Identifier.numeric 0]⟩ h1).1⟩

/-- C5: a SafeRange is valid exactly when its start bound is
Unbounded, or its end bound is Unbounded, or the start position is
strictly below the end position, or the two positions are equal with
at least one of the two bounds inclusive. -/
theorem is_valid_iff_spec (r : UnaffectedRange) :
    r.is_valid = true ↔ is_valid_spec r := by
  obtain ⟨s, e⟩ := r
  cases s <;> cases e <;>
    simp [UnaffectedRange.is_valid, is_valid_spec, Bound.version, Bound.isInclusive]

/-- C2: the windows loop of the complement generator emits, for every
adjacent pair of its (sorted) input, one gap range whose start is the
end bound of the earlier range converted by gapStartOf (an exclusive
end is incremented, an inclusive end passes through unchanged) and
whose end is the start bound of the later range converted by gapEndOf
(an exclusive start passes through unchanged, an inclusive start is
incremented), exactly as the specification words it. -/
theorem gap_emission_spec :
    (∀ (a b : UnaffectedRange) (rest : List UnaffectedRange) (res : List OsvRange),
      gapRanges (a :: b :: rest) = some res →
      ∃ s e res2, res = ⟨some s, some e⟩ :: res2 ∧
        gapStartOf a.end_ = some s ∧ gapEndOf b.start = some e ∧
        gapRanges (b :: rest) = some res2) ∧
    (∀ v, gapStartOf (Bound.Exclusive v) = increment v) ∧
    (∀ v, gapStartOf (Bound.Inclusive v) = some v) ∧
    (∀ v, gapEndOf (Bound.Exclusive v) = some v) ∧
    (∀ v, gapEndOf (Bound.Inclusive v) = increment v) := by
  refine ⟨?_, fun v => rfl, fun v => rfl, fun v => rfl, fun v => rfl⟩
  intro a b rest res h
  cases hs : gapStartOf a.end_ with
  | none => simp [gapRanges, hs] at h
  | some s =>
    cases he : gapEndOf b.start with
    | none => simp [gapRanges, hs, he] at h
    | some e =>
      cases hg : gapRanges (b :: rest) with
      | none => simp [gapRanges, hs, he, hg] at h
      | some res2 =>
        simp only [gapRanges, hs, he, hg, Option.some.injEq] at h
        exact ⟨s, e, res2, h.symm, rfl, rfl, rfl⟩

/-- C2 witness: the theorem applied to the adjacent pair
(Unbounded, Inclusive 1.0.0) and (Inclusive 2.0.0, Unbounded), whose
gap range is (Some 1.0.0, Some 2.0.1-0). -/
theorem gap_emission_spec_witness :
    ∃ s e res2,
      [(⟨some ⟨1,0,0,[]⟩, some ⟨2,0,1,[Identifier.numeric 0]⟩⟩ : OsvRange)] =
        (⟨some s, some e⟩ : OsvRange) :: res2 ∧
      gapStartOf (Bound.Inclusive ⟨1,0,0,[]⟩) = some s ∧
      gapEndOf (Bound.Inclusive ⟨2,0,0,[]⟩) = some e ∧
      gapRanges [⟨Bound.Inclusive ⟨2,0,0,[]⟩, Bound.Unbounded⟩] = some res2 :=
  gap_emission_spec.1 ⟨Bound.Unbounded, Bound.Inclusive ⟨1,0,0,[]⟩⟩
    ⟨Bound.Inclusive ⟨2,0,0,[]⟩, Bound.Unbounded⟩ []
    [⟨some ⟨1,0,0,[]⟩, some ⟨2,0,1,[Identifier.numeric 0]⟩⟩] (by decide)

/-- C7: on any all-valid input containing two distinct overlapping
ranges the complement generator fails fatally, and in particular on
the overlapping pair [0.1.0, 1.1.0] and [0.2.0, 1.3.0]. -/
theorem overlap_input_fails :
    (∀ (l : List UnaffectedRange), l.all UnaffectedRange.is_valid = true →
      ∀ (i j : Nat) (hi : i < l.length) (hj : j < l.length), i < j →
        (l.get ⟨i, hi⟩).overlaps (l.get ⟨j, hj⟩) = true →
        unaffected_to_osv_ranges l = none) ∧
    unaffected_to_osv_ranges
      [⟨Bound.Inclusive ⟨0,1,0,[]⟩, Bound.Inclusive ⟨1,1,0,[]⟩⟩,
       ⟨Bound.Inclusive ⟨0,2,0,[]⟩, Bound.Inclusive ⟨1,3,0,[]⟩⟩] = none := by
  constructor
  · intro l hv i j hi hj hij hov
    have hlen1 : i < l.dropLast.length := by
      rw [List.length_dropLast]
      omega
    have hlen2 : j - 1 < (l.drop 1).length := by
      rw [List.length_drop]
      omega
    have h1 : l.dropLast.get ⟨i, hlen1⟩ = l.get ⟨i, hi⟩ := by
      simp [List.get_eq_getElem, List.getElem_dropLast]
    have h2 : (l.drop 1).get ⟨j - 1, hlen2⟩ = l.get ⟨j, hj⟩ := by
      simp only [List.get_eq_getElem, List.getElem_drop]
      congr 1
      omega
    have hmem1 : l.get ⟨i, hi⟩ ∈ l.dropLast := h1 ▸ List.get_mem _ _ hlen1
    have hmem2 : l.get ⟨j, hj⟩ ∈ l.drop 1 := h2 ▸ List.get_mem _ _ hlen2
    have hne : l ≠ [] := by
      intro hl
      subst hl
      simp at hj
    have hoc : overlapCheck l = false := by
      cases hcase : overlapCheck l
      · rfl
      · exfalso
        unfold overlapCheck at hcase
        rw [List.all_eq_true] at hcase
        have ha := hcase _ hmem1
        rw [List.all_eq_true] at ha
        have hb := ha _ hmem2
        rw [hov] at hb
        simp at hb
    simp [unaffected_to_osv_ranges, hv, hoc, hne]
  · decide

/-- C7 witness: the universal part applied to two concrete
overlapping ranges [1.0.0, 2.0.0] and [1.5.0, 2.5.0]. -/
theorem overlap_input_fails_witness :
    unaffected_to_osv_ranges
      [⟨Bound.Inclusive ⟨1,0,0,[]⟩, Bound.Inclusive ⟨2,0,0,[]⟩⟩,
       ⟨Bound.Inclusive ⟨1,5,0,[]⟩, Bound.Inclusive ⟨2,5,0,[]⟩⟩] = none :=
  overlap_input_fails.1 _ (by decide) 0 1 (by decide) (by decide) (by decide)
    (by decide)

/-- C6 counterexample: two valid degenerate point ranges
A = (Exclusive 1.0.0, Inclusive 1.0.0) and
B = (Inclusive 1.0.0, Exclusive 1.0.0), whose facing bounds A.end and
B.start are both Inclusive at the same version, yet overlaps returns
false, refuting the claim that both facing bounds inclusive suffices
for overlap. -/
theorem overlaps_touching_counterexample :
    UnaffectedRange.is_valid
      ⟨Bound.Exclusive ⟨1,0,0,[]⟩, Bound.Inclusive ⟨1,0,0,[]⟩⟩ = true ∧
    UnaffectedRange.is_valid
      ⟨Bound.Inclusive ⟨1,0,0,[]⟩, Bound.Exclusive ⟨1,0,0,[]⟩⟩ = true ∧
    (⟨Bound.Exclusive ⟨1,0,0,[]⟩, Bound.Inclusive ⟨1,0,0,[]⟩⟩ :
      UnaffectedRange).end_.version = some ⟨1,0,0,[]⟩ ∧
    (⟨Bound.Inclusive ⟨1,0,0,[]⟩, Bound.Exclusive ⟨1,0,0,[]⟩⟩ :
      UnaffectedRange).start.version = some ⟨1,0,0,[]⟩ ∧
    (⟨Bound.Exclusive ⟨1,0,0,[]⟩, Bound.Inclusive ⟨1,0,0,[]⟩⟩ :
      UnaffectedRange).end_.isInclusive = true ∧
    (⟨Bound.Inclusive ⟨1,0,0,[]⟩, Bound.Exclusive ⟨1,0,0,[]⟩⟩ :
      UnaffectedRange).start.isInclusive = true ∧
    UnaffectedRange.overlaps
      ⟨Bound.Exclusive ⟨1,0,0,[]⟩, Bound.Inclusive ⟨1,0,0,[]⟩⟩
      ⟨Bound.Inclusive ⟨1,0,0,[]⟩, Bound.Exclusive ⟨1,0,0,[]⟩⟩ = false := by
  decide

/-- C6 amended: for valid ranges whose facing bounds A.end and B.start
carry the same version v, overlaps is symmetric; it returns false
whenever at least one facing bound is exclusive; and with both facing
bounds inclusive it returns true exactly unless the outer bounds
A.start and B.end also both sit at v with at least one of them not
inclusive (a degenerate point range on one side), which is the only
situation the original claim missed. -/
theorem overlaps_touching_amended :
    ∀ (A B : UnaffectedRange) (v : Version),
      A.is_valid = true → B.is_valid = true →
      A.end_.version = some v → B.start.version = some v →
      (A.overlaps B = B.overlaps A) ∧
      ((A.end_.isInclusive = false ∨ B.start.isInclusive = false) →
        A.overlaps B = false) ∧
      (A.end_.isInclusive = true → B.start.isInclusive = true →
        (A.overlaps B = true ↔
          ¬(A.start.version = some v ∧ B.end_.version = some v ∧
            (A.start.isInclusive = false ∨ B.end_.isInclusive = false)))) := by
  intro A B v hvA hvB hAv hBv
  obtain ⟨sA, eA⟩ := A
  obtain ⟨sB, eB⟩ := B
  simp only at hAv hBv ⊢
  refine ⟨by simp [UnaffectedRange.overlaps, Bool.and_comm], ?_, ?_⟩
  · intro hfx
    cases eA with
    | Unbounded => simp [Bound.version] at hAv
    | Exclusive wA =>
      rw [Bound.version, Option.some.injEq] at hAv
      subst wA
      cases sB with
      | Unbounded => simp [Bound.version] at hBv
      | Exclusive wB =>
        rw [Bound.version, Option.some.injEq] at hBv
        subst wB
        simp [UnaffectedRange.overlaps, less_or_equal, Bound.version,
          versionLt_irrefl]
      | Inclusive wB =>
        rw [Bound.version, Option.some.injEq] at hBv
        subst wB
        simp [UnaffectedRange.overlaps, less_or_equal, Bound.version,
          versionLt_irrefl]
    | Inclusive wA =>
      rw [Bound.version, Option.some.injEq] at hAv
      subst wA
      cases sB with
      | Unbounded => simp [Bound.version] at hBv
      | Exclusive wB =>
        rw [Bound.version, Option.some.injEq] at hBv
        subst wB
        simp [UnaffectedRange.overlaps, less_or_equal, Bound.version,
          versionLt_irrefl]
      | Inclusive wB =>
        rw [Bound.version, Option.some.injEq] at hBv
        subst wB
        simp [Bound.isInclusive] at hfx
  · intro hiA hiB
    cases eA with
    | Unbounded => simp [Bound.version] at hAv
    | Exclusive wA => simp [Bound.isInclusive] at hiA
    | Inclusive wA =>
      rw [Bound.version, Option.some.injEq] at hAv
      subst wA
      cases sB with
      | Unbounded => simp [Bound.version] at hBv
      | Exclusive wB => simp [Bound.isInclusive] at hiB
      | Inclusive wB =>
        rw [Bound.version, Option.some.injEq] at hBv
        subst wB
        have hle2 : less_or_equal (Bound.Inclusive v) (Bound.Inclusive v) = true := by
          simp [less_or_equal, Bound.version, versionLt_irrefl]
        simp only [UnaffectedRange.overlaps, hle2, Bool.and_true]
        cases sA with
        | Unbounded => simp [less_or_equal, Bound.version]
        | Exclusive u =>
          simp only [UnaffectedRange.is_valid, Bool.or_eq_true,
            decide_eq_true_eq] at hvA
          cases eB with
          | Unbounded => simp [less_or_equal, Bound.version]
          | Exclusive w =>
            simp only [UnaffectedRange.is_valid, Bool.or_eq_true,
              decide_eq_true_eq] at hvB
            rcases hvA with hu | hu
            · have huw : versionLt u w = true := by
                rcases hvB with hw | hw
                · exact versionLt_trans hu hw
                · exact hw ▸ hu
              have h1 : versionLt w u = false := versionLt_asymm huw
              have h2 : w ≠ u := fun he => versionLt_ne huw he.symm
              have h3 : u ≠ v := versionLt_ne hu
              simp [less_or_equal, Bound.version, h1, h2, h3]
            · subst u
              rcases hvB with hw | hw
              · have h1 : versionLt w v = false := versionLt_asymm hw
                have h2 : w ≠ v := fun he => versionLt_ne hw he.symm
                simp [less_or_equal, Bound.version, h1, h2, Bound.isInclusive]
              · subst w
                simp [less_or_equal, Bound.version, versionLt_irrefl,
                  Bound.isInclusive]
          | Inclusive w =>
            simp only [UnaffectedRange.is_valid, Bool.or_eq_true,
              decide_eq_true_eq] at hvB
            rcases hvA with hu | hu
            · have huw : versionLt u w = true := by
                rcases hvB with hw | hw
                · exact versionLt_trans hu hw
                · exact hw ▸ hu
              have h1 : versionLt w u = false := versionLt_asymm huw
              have h2 : w ≠ u := fun he => versionLt_ne huw he.symm
              have h3 : u ≠ v := versionLt_ne hu
              simp [less_or_equal, Bound.version, h1, h2, h3]
            · subst u
              rcases hvB with hw | hw
              · have h1 : versionLt w v = false := versionLt_asymm hw
                have h2 : w ≠ v := fun he => versionLt_ne hw he.symm
                simp [less_or_equal, Bound.version, h1, h2, Bound.isInclusive]
              · subst w
                simp [less_or_equal, Bound.version, versionLt_irrefl,
                  Bound.isInclusive]
        | Inclusive u =>
          simp only [UnaffectedRange.is_valid, Bool.or_eq_true,
            decide_eq_true_eq] at hvA
          cases eB with
          | Unbounded => simp [less_or_equal, Bound.version]
          | Exclusive w =>
            simp only [UnaffectedRange.is_valid, Bool.or_eq_true,
              decide_eq_true_eq] at hvB
            rcases hvA with hu | hu
            · have huw : versionLt u w = true := by
                rcases hvB with hw | hw
                · exact versionLt_trans hu hw
                · exact hw ▸ hu
              have h1 : versionLt w u = false := versionLt_asymm huw
              have h2 : w ≠ u := fun he => versionLt_ne huw he.symm
              have h3 : u ≠ v := versionLt_ne hu
              simp [less_or_equal, Bound.version, h1, h2, h3]
            · subst u
              rcases hvB with hw | hw
              · have h1 : versionLt w v = false := versionLt_asymm hw
                have h2 : w ≠ v := fun he => versionLt_ne hw he.symm
                simp [less_or_equal, Bound.version, h1, h2, Bound.isInclusive]
              · subst w
                simp [less_or_equal, Bound.version, versionLt_irrefl,
                  Bound.isInclusive]
          | Inclusive w =>
            simp only [UnaffectedRange.is_valid, Bool.or_eq_true,
              decide_eq_true_eq] at hvB
            rcases hvA with hu | hu
            · have huw : versionLt u w = true := by
                rcases hvB with hw | hw
                · exact versionLt_trans hu hw
                · exact hw ▸ hu
              have h1 : versionLt w u = false := versionLt_asymm huw
              have h2 : w ≠ u := fun he => versionLt_ne huw he.symm
              have h3 : u ≠ v := versionLt_ne hu
              simp [less_or_equal, Bound.version, h1, h2, h3]
            · subst u
              rcases hvB with hw | hw
              · have h1 : versionLt w v = false := versionLt_asymm hw
                have h2 : w ≠ v := fun he => versionLt_ne hw he.symm
                simp [less_or_equal, Bound.version, h1, h2, Bound.isInclusive]
              · subst w
                simp [less_or_equal, Bound.version, versionLt_irrefl,
                  Bound.isInclusive]

/-- C6 witness: the amended theorem applied to the touching pair
(Unbounded, Inclusive 1.0.0) and (Inclusive 1.0.0, Unbounded), whose
facing bounds are both inclusive and whose outer bounds are unbounded,
so overlaps returns true. -/
theorem overlaps_touching_amended_witness :
    UnaffectedRange.overlaps
      ⟨Bound.Unbounded, Bound.Inclusive ⟨1,0,0,[]⟩⟩
      ⟨Bound.Inclusive ⟨1,0,0,[]⟩, Bound.Unbounded⟩ = true := by
  have h := (overlaps_touching_amended
    ⟨Bound.Unbounded, Bound.Inclusive ⟨1,0,0,[]⟩⟩
    ⟨Bound.Inclusive ⟨1,0,0,[]⟩, Bound.Unbounded⟩ ⟨1,0,0,[]⟩
    (by decide) (by decide) (by decide) (by decide)).2.2 (by decide) (by decide)
  exact h.2 (by decide)

/-! Helper facts about the comparator loop of the normalizer. -/

theorem applyComp_start_persists {r r2 : UnaffectedRange} {c : Comparator} :
    applyComp r c = some r2 → r.start ≠ Bound.Unbounded → r2.start ≠ Bound.Unbounded := by
  intro h hs
  cases hop : c.op <;> simp only [applyComp, hop] at h
  case Exact => cases h
  case Caret => cases h
  case Tilde => cases h
  case Wildcard => cases h
  case Greater => rw [if_neg hs] at h; cases h
  case GreaterEq => rw [if_neg hs] at h; cases h
  case Less =>
    by_cases he : r.end_ = Bound.Unbounded
    · rw [if_pos he] at h
      injection h with h
      subst h
      exact hs
    · rw [if_neg he] at h
      cases h
  case LessEq =>
    by_cases he : r.end_ = Bound.Unbounded
    · rw [if_pos he] at h
      injection h with h
      subst h
      exact hs
    · rw [if_neg he] at h
      cases h

theorem applyComp_end_persists {r r2 : UnaffectedRange} {c : Comparator} :
    applyComp r c = some r2 → r.end_ ≠ Bound.Unbounded → r2.end_ ≠ Bound.Unbounded := by
  intro h he
  cases hop : c.op <;> simp only [applyComp, hop] at h
  case Exact => cases h
  case Caret => cases h
  case Tilde => cases h
  case Wildcard => cases h
  case Less => rw [if_neg he] at h; cases h
  case LessEq => rw [if_neg he] at h; cases h
  case Greater =>
    by_cases hs : r.start = Bound.Unbounded
    · rw [if_pos hs] at h
      injection h with h
      subst h
      exact he
    · rw [if_neg hs] at h
      cases h
  case GreaterEq =>
    by_cases hs : r.start = Bound.Unbounded
    · rw [if_pos hs] at h
      injection h with h
      subst h
      exact he
    · rw [if_neg hs] at h
      cases h

theorem applyComps_exact_none {c : Comparator} (he : c.op = Op.Exact) :
    ∀ (r : UnaffectedRange) (l : List Comparator), c ∈ l → applyComps r l = none
  | r, [], h => absurd h (List.not_mem_nil c)
  | r, c0 :: rest, h => by
    rcases List.mem_cons.mp h with h0 | h0
    · subst h0
      simp [applyComps, applyComp, he]
    · cases ha : applyComp r c0 with
      | none => simp [applyComps, ha]
      | some r2 =>
        simp only [applyComps, ha]
        exact applyComps_exact_none he r2 rest h0

theorem applyComps_lower_conflict :
    ∀ (r : UnaffectedRange) (l : List Comparator), r.start ≠ Bound.Unbounded →
      (∃ c ∈ l, c.op.isLower = true) → applyComps r l = none
  | r, [], hs, hex => by
    rcases hex with ⟨c, hc, _⟩
    exact absurd hc (List.not_mem_nil c)
  | r, c0 :: rest, hs, hex => by
    rcases hex with ⟨c, hc, hcl⟩
    rcases List.mem_cons.mp hc with h0 | h0
    · subst h0
      cases hop : c.op <;> rw [hop] at hcl <;> simp [Op.isLower] at hcl
      case Greater => simp [applyComps, applyComp, hop, if_neg hs]
      case GreaterEq => simp [applyComps, applyComp, hop, if_neg hs]
    · cases ha : applyComp r c0 with
      | none => simp [applyComps, ha]
      | some r2 =>
        simp only [applyComps, ha]
        exact applyComps_lower_conflict r2 rest
          (applyComp_start_persists ha hs) ⟨c, h0, hcl⟩

theorem applyComps_upper_conflict :
    ∀ (r : UnaffectedRange) (l : List Comparator), r.end_ ≠ Bound.Unbounded →
      (∃ c ∈ l, c.op.isUpper = true) → applyComps r l = none
  | r, [], he, hex => by
    rcases hex with ⟨c, hc, _⟩
    exact absurd hc (List.not_mem_nil c)
  | r, c0 :: rest, he, hex => by
    rcases hex with ⟨c, hc, hcu⟩
    rcases List.mem_cons.mp hc with h0 | h0
    · subst h0
      cases hop : c.op <;> rw [hop] at hcu <;> simp [Op.isUpper] at hcu
      case Less => simp [applyComps, applyComp, hop, if_neg he]
      case LessEq => simp [applyComps, applyComp, hop, if_neg he]
    · cases ha : applyComp r c0 with
      | none => simp [applyComps, ha]
      | some r2 =>
        simp only [applyComps, ha]
        exact applyComps_upper_conflict r2 rest
          (applyComp_end_persists ha he) ⟨c, h0, hcu⟩

theorem applyComps_two_lower :
    ∀ (r : UnaffectedRange) (l : List Comparator),
      2 ≤ l.countP (fun c => c.op.isLower) → applyComps r l = none
  | r, [], h2 => by simp [List.countP_nil] at h2
  | r, c0 :: rest, h2 => by
    rw [List.countP_cons] at h2
    cases hop : c0.op
    case Exact => simp [applyComps, applyComp, hop]
    case Caret => simp [applyComps, applyComp, hop]
    case Tilde => simp [applyComps, applyComp, hop]
    case Wildcard => simp [applyComps, applyComp, hop]
    case Greater =>
      by_cases hs : r.start = Bound.Unbounded
      · simp only [applyComps, applyComp, hop, if_pos hs]
        refine applyComps_lower_conflict _ rest (by simp) ?_
        rw [← List.countP_pos_iff]
        rw [hop, if_pos (show Op.Greater.isLower = true from rfl)] at h2
        omega
      · simp [applyComps, applyComp, hop, if_neg hs]
    case GreaterEq =>
      by_cases hs : r.start = Bound.Unbounded
      · simp only [applyComps, applyComp, hop, if_pos hs]
        refine applyComps_lower_conflict _ rest (by simp) ?_
        rw [← List.countP_pos_iff]
        rw [hop, if_pos (show Op.GreaterEq.isLower = true from rfl)] at h2
        omega
      · simp [applyComps, applyComp, hop, if_neg hs]
    case Less =>
      by_cases he : r.end_ = Bound.Unbounded
      · simp only [applyComps, applyComp, hop, if_pos he]
        refine applyComps_two_lower _ rest ?_
        rw [hop, if_neg (show ¬(Op.Less.isLower = true) from by decide)] at h2
        omega
      · simp [applyComps, applyComp, hop, if_neg he]
    case LessEq =>
      by_cases he : r.end_ = Bound.Unbounded
      · simp only [applyComps, applyComp, hop, if_pos he]
        refine applyComps_two_lower _ rest ?_
        rw [hop, if_neg (show ¬(Op.LessEq.isLower = true) from by decide)] at h2
        omega
      · simp [applyComps, applyComp, hop, if_neg he]

theorem applyComps_two_upper :
    ∀ (r : UnaffectedRange) (l : List Comparator),
      2 ≤ l.countP (fun c => c.op.isUpper) → applyComps r l = none
  | r, [], h2 => by simp [List.countP_nil] at h2
  | r, c0 :: rest, h2 => by
    rw [List.countP_cons] at h2
    cases hop : c0.op
    case Exact => simp [applyComps, applyComp, hop]
    case Caret => simp [applyComps, applyComp, hop]
    case Tilde => simp [applyComps, applyComp, hop]
    case Wildcard => simp [applyComps, applyComp, hop]
    case Less =>
      by_cases he : r.end_ = Bound.Unbounded
      · simp only [applyComps, applyComp, hop, if_pos he]
        refine applyComps_upper_conflict _ rest (by simp) ?_
        rw [← List.countP_pos_iff]
        rw [hop, if_pos (show Op.Less.isUpper = true from rfl)] at h2
        omega
      · simp [applyComps, applyComp, hop, if_neg he]
    case LessEq =>
      by_cases he : r.end_ = Bound.Unbounded
      · simp only [applyComps, applyComp, hop, if_pos he]
        refine applyComps_upper_conflict _ rest (by simp) ?_
        rw [← List.countP_pos_iff]
        rw [hop, if_pos (show Op.LessEq.isUpper = true from rfl)] at h2
        omega
      · simp [applyComps, applyComp, hop, if_neg he]
    case Greater =>
      by_cases hs : r.start = Bound.Unbounded
      · simp only [applyComps, applyComp, hop, if_pos hs]
        refine applyComps_two_upper _ rest ?_
        rw [hop, if_neg (show ¬(Op.Greater.isUpper = true) from by decide)] at h2
        omega
      · simp [applyComps, applyComp, hop, if_neg hs]
    case GreaterEq =>
      by_cases hs : r.start = Bound.Unbounded
      · simp only [applyComps, applyComp, hop, if_pos hs]
        refine applyComps_two_upper _ rest ?_
        rw [hop, if_neg (show ¬(Op.GreaterEq.isUpper = true) from by decide)] at h2
        omega
      · simp [applyComps, applyComp, hop, if_neg hs]

/-- C8 counterexample: the requirement (greater than 2.0.0, less than
1.0.0) has two clauses, exactly one lower bound, exactly one upper
bound, only supported non-equality operators, yet the normalizer fails
fatally because the resulting range violates the validity invariant, a
failure condition the claim does not list. -/
theorem from_req_counterexample :
    from_req ⟨[⟨Op.Greater, 2, none, none, []⟩, ⟨Op.Less, 1, none, none, []⟩]⟩ =
      none ∧
    (⟨[⟨Op.Greater, 2, none, none, []⟩, ⟨Op.Less, 1, none, none, []⟩]⟩ :
      VersionReq).comparators.length ≤ 2 ∧
    (⟨[⟨Op.Greater, 2, none, none, []⟩, ⟨Op.Less, 1, none, none, []⟩]⟩ :
      VersionReq).comparators.countP (fun c => c.op.isLower) = 1 ∧
    (⟨[⟨Op.Greater, 2, none, none, []⟩, ⟨Op.Less, 1, none, none, []⟩]⟩ :
      VersionReq).comparators.countP (fun c => c.op.isUpper) = 1 ∧
    (⟨[⟨Op.Greater, 2, none, none, []⟩, ⟨Op.Less, 1, none, none, []⟩]⟩ :
      VersionReq).comparators.all (fun c => c.op.supported) = true ∧
    (⟨[⟨Op.Greater, 2, none, none, []⟩, ⟨Op.Less, 1, none, none, []⟩]⟩ :
      VersionReq).comparators.all (fun c => !(decide (c.op = Op.Exact))) = true := by
  decide

/-- C8 amended: the normalizer fails fatally on more than two clauses,
on any clause with the bare equality operator, on a second lower bound
and on a second upper bound; and in the remaining supported shapes
(no clause, one supported clause, or one lower plus one upper clause
in either order) it returns the denoted SafeRange provided that range
satisfies the validity invariant, whose violation is a further fatal
case the original claim missed. -/
theorem from_req_amended :
    (∀ req : VersionReq, req.comparators.length > 2 → from_req req = none) ∧
    (∀ (req : VersionReq) (c : Comparator), c ∈ req.comparators →
      c.op = Op.Exact → from_req req = none) ∧
    (∀ req : VersionReq,
      2 ≤ req.comparators.countP (fun c => c.op.isLower) → from_req req = none) ∧
    (∀ req : VersionReq,
      2 ≤ req.comparators.countP (fun c => c.op.isUpper) → from_req req = none) ∧
    (from_req ⟨[]⟩ = some ⟨Bound.Unbounded, Bound.Unbounded⟩) ∧
    (∀ c : Comparator, c.op.supported = true →
      from_req ⟨[c]⟩ = some (rangeOf ⟨[c]⟩)) ∧
    (∀ c d : Comparator, c.op.isLower = true → d.op.isUpper = true →
      (rangeOf ⟨[c, d]⟩).is_valid = true →
      from_req ⟨[c, d]⟩ = some (rangeOf ⟨[c, d]⟩)) ∧
    (∀ c d : Comparator, c.op.isUpper = true → d.op.isLower = true →
      (rangeOf ⟨[c, d]⟩).is_valid = true →
      from_req ⟨[c, d]⟩ = some (rangeOf ⟨[c, d]⟩)) := by
  refine ⟨?_, ?_, ?_, ?_, by decide, ?_, ?_, ?_⟩
  · intro req h
    simp [from_req, h]
  · intro req c hc he
    by_cases hlen : req.comparators.length > 2
    · simp [from_req, hlen]
    · simp [from_req, hlen, applyComps_exact_none he _ _ hc]
  · intro req h2
    by_cases hlen : req.comparators.length > 2
    · simp [from_req, hlen]
    · simp [from_req, hlen, applyComps_two_lower _ _ h2]
  · intro req h2
    by_cases hlen : req.comparators.length > 2
    · simp [from_req, hlen]
    · simp [from_req, hlen, applyComps_two_upper _ _ h2]
  · intro c hsup
    cases hop : c.op <;> rw [Op.supported, hop] at hsup <;>
      simp [Op.isLower, Op.isUpper] at hsup
    case Greater =>
      simp [from_req, applyComps, applyComp, rangeOf, hop,
        UnaffectedRange.is_valid]
    case GreaterEq =>
      simp [from_req, applyComps, applyComp, rangeOf, hop,
        UnaffectedRange.is_valid]
    case Less =>
      simp [from_req, applyComps, applyComp, rangeOf, hop,
        UnaffectedRange.is_valid]
    case LessEq =>
      simp [from_req, applyComps, applyComp, rangeOf, hop,
        UnaffectedRange.is_valid]
  · intro c d hcl hdu hval
    cases hopc : c.op <;> rw [hopc] at hcl <;> simp [Op.isLower] at hcl <;>
      cases hopd : d.op <;> rw [hopd] at hdu <;> simp [Op.isUpper] at hdu
    case Greater.Less =>
      rw [show rangeOf ⟨[c, d]⟩ =
          ⟨Bound.Exclusive (comp_to_ver c), Bound.Exclusive (comp_to_ver d)⟩ from
        by simp [rangeOf, hopc, hopd]] at hval ⊢
      simp [from_req, applyComps, applyComp, hopc, hopd, hval]
    case Greater.LessEq =>
      rw [show rangeOf ⟨[c, d]⟩ =
          ⟨Bound.Exclusive (comp_to_ver c), Bound.Inclusive (comp_to_ver d)⟩ from
        by simp [rangeOf, hopc, hopd]] at hval ⊢
      simp [from_req, applyComps, applyComp, hopc, hopd, hval]
    case GreaterEq.Less =>
      rw [show rangeOf ⟨[c, d]⟩ =
          ⟨Bound.Inclusive (comp_to_ver c), Bound.Exclusive (comp_to_ver d)⟩ from
        by simp [rangeOf, hopc, hopd]] at hval ⊢
      simp [from_req, applyComps, applyComp, hopc, hopd, hval]
    case GreaterEq.LessEq =>
      rw [show rangeOf ⟨[c, d]⟩ =
          ⟨Bound.Inclusive (comp_to_ver c), Bound.Inclusive (comp_to_ver d)⟩ from
        by simp [rangeOf, hopc, hopd]] at hval ⊢
      simp [from_req, applyComps, applyComp, hopc, hopd, hval]
  · intro c d hcu hdl
    cases hopc : c.op <;> rw [hopc] at hcu <;> simp [Op.isUpper] at hcu <;>
      cases hopd : d.op <;> rw [hopd] at hdl <;> simp [Op.isLower] at hdl
    case Less.Greater =>
      intro hval
      rw [show rangeOf ⟨[c, d]⟩ =
          ⟨Bound.Exclusive (comp_to_ver d), Bound.Exclusive (comp_to_ver c)⟩ from
        by simp [rangeOf, hopc, hopd]] at hval ⊢
      simp [from_req, applyComps, applyComp, hopc, hopd, hval]
    case Less.GreaterEq =>
      intro hval
      rw [show rangeOf ⟨[c, d]⟩ =
          ⟨Bound.Inclusive (comp_to_ver d), Bound.Exclusive (comp_to_ver c)⟩ from
        by simp [rangeOf, hopc, hopd]] at hval ⊢
      simp [from_req, applyComps, applyComp, hopc, hopd, hval]
    case LessEq.Greater =>
      intro hval
      rw [show rangeOf ⟨[c, d]⟩ =
          ⟨Bound.Exclusive (comp_to_ver d), Bound.Inclusive (comp_to_ver c)⟩ from
        by simp [rangeOf, hopc, hopd]] at hval ⊢
      simp [from_req, applyComps, applyComp, hopc, hopd, hval]
    case LessEq.GreaterEq =>
      intro hval
      rw [show rangeOf ⟨[c, d]⟩ =
          ⟨Bound.Inclusive (comp_to_ver d), Bound.Inclusive (comp_to_ver c)⟩ from
        by simp [rangeOf, hopc, hopd]] at hval ⊢
      simp [from_req, applyComps, applyComp, hopc, hopd, hval]

/-- C8 witness: the amended theorem applied to the requirement
(greater than 1.0.0, less than 2.0.0), which normalizes to the range
(Exclusive 1.0.0, Exclusive 2.0.0). -/
theorem from_req_amended_witness :
    from_req ⟨[⟨Op.Greater, 1, none, none, []⟩, ⟨Op.Less, 2, none, none, []⟩]⟩ =
      some (rangeOf ⟨[⟨Op.Greater, 1, none, none, []⟩,
        ⟨Op.Less, 2, none, none, []⟩]⟩) :=
  from_req_amended.2.2.2.2.2.2.1 ⟨Op.Greater, 1, none, none, []⟩
    ⟨Op.Less, 2, none, none, []⟩ (by decide) (by decide) (by decide)

/-- C10: a valid, non-overlapping input on which the complement
generator emits a degenerate affected range whose start equals its
end: the SafeRanges (Unbounded, Inclusive 1.0.0) and
(Exclusive 1.0.0, Unbounded) do not overlap in either order, yet the
output is exactly the single empty range
(Some 1.0.0, Some 1.0.0). -/
theorem degenerate_osv_range_emitted :
    UnaffectedRange.is_valid ⟨Bound.Unbounded, Bound.Inclusive ⟨1,0,0,[]⟩⟩ = true ∧
    UnaffectedRange.is_valid ⟨Bound.Exclusive ⟨1,0,0,[]⟩, Bound.Unbounded⟩ = true ∧
    UnaffectedRange.overlaps
      ⟨Bound.Unbounded, Bound.Inclusive ⟨1,0,0,[]⟩⟩
      ⟨Bound.Exclusive ⟨1,0,0,[]⟩, Bound.Unbounded⟩ = false ∧
    UnaffectedRange.overlaps
      ⟨Bound.Exclusive ⟨1,0,0,[]⟩, Bound.Unbounded⟩
      ⟨Bound.Unbounded, Bound.Inclusive ⟨1,0,0,[]⟩⟩ = false ∧
    unaffected_to_osv_ranges
      [⟨Bound.Unbounded, Bound.Inclusive ⟨1,0,0,[]⟩⟩,
       ⟨Bound.Exclusive ⟨1,0,0,[]⟩, Bound.Unbounded⟩] =
      some [⟨some ⟨1,0,0,[]⟩, some ⟨1,0,0,[]⟩⟩] := by
  decide

/-- Insertion sort is the identity on a list whose adjacent pairs are
already strictly ascending under the sort comparator. -/
theorem sortBy_sorted_id : ∀ (l : List UnaffectedRange), sortedAdj l = true →
    sortBy l = some l
  | [] => fun _ => rfl
  | [x] => fun _ => rfl
  | x :: y :: rest => by
    intro h
    simp only [sortedAdj, Bool.and_eq_true, decide_eq_true_eq] at h
    obtain ⟨h1e, h2⟩ := h
    have ih := sortBy_sorted_id (y :: rest) h2
    have hstep : sortBy (x :: y :: rest) =
        match sortBy (y :: rest) with
        | none => none
        | some s => insertBy x s := rfl
    rw [hstep, ih]
    show insertBy x (y :: rest) = some (x :: y :: rest)
    simp only [insertBy, h1e]

/-- C9: on a sorted input passing the generator checks, the output is
exactly the head emission of the first start bound, followed by the
gap ranges, followed by the tail emission of the last end bound; the
head emission maps Unbounded to nothing, an exclusive start v to
(None, increment v) and an inclusive start v to (None, v); the tail
emission maps Unbounded to nothing, an exclusive end v to (v, None)
and an inclusive end v to (increment v, None); and the single
requirement at-least-1.2.3 normalizes to
(Inclusive 1.2.3, Unbounded) and yields exactly
[(None, Some 1.2.3)]. -/
theorem head_tail_emission_spec :
    (∀ (l : List UnaffectedRange) (hne : l ≠ []) (res : List OsvRange),
      sortedAdj l = true → unaffected_to_osv_ranges l = some res →
      ∃ h g t, headRange (l.head hne).start = some h ∧
        gapRanges l = some g ∧
        tailRange (l.getLast hne).end_ = some t ∧
        res = h ++ g ++ t) ∧
    headRange Bound.Unbounded = some [] ∧
    (∀ v, headRange (Bound.Exclusive v) =
      (increment v).map (fun iv => [⟨none, some iv⟩])) ∧
    (∀ v, headRange (Bound.Inclusive v) = some [⟨none, some v⟩]) ∧
    tailRange Bound.Unbounded = some [] ∧
    (∀ v, tailRange (Bound.Exclusive v) = some [⟨some v, none⟩]) ∧
    (∀ v, tailRange (Bound.Inclusive v) =
      (increment v).map (fun iv => [⟨some iv, none⟩])) ∧
    from_req ⟨[⟨Op.GreaterEq, 1, some 2, some 3, []⟩]⟩ =
      some ⟨Bound.Inclusive ⟨1,2,3,[]⟩, Bound.Unbounded⟩ ∧
    unaffected_to_osv_ranges [⟨Bound.Inclusive ⟨1,2,3,[]⟩, Bound.Unbounded⟩] =
      some [⟨none, some ⟨1,2,3,[]⟩⟩] := by
  refine ⟨?_, rfl, fun v => rfl, fun v => rfl, rfl, fun v => rfl, fun v => rfl,
    by decide, by decide⟩
  intro l hne res hsort hres
  cases l with
  | nil => exact absurd rfl hne
  | cons first rest =>
    cases hv : (first :: rest).all UnaffectedRange.is_valid with
    | false => simp [unaffected_to_osv_ranges, hv] at hres
    | true =>
      cases hoc : overlapCheck (first :: rest) with
      | false => simp [unaffected_to_osv_ranges, hv, hoc] at hres
      | true =>
        have hss := sortBy_sorted_id (first :: rest) hsort
        simp only [unaffected_to_osv_ranges, hv, hoc, hss, Bool.not_true,
          Bool.not_false, List.isEmpty_cons, Bool.false_eq_true, if_false,
          if_true] at hres
        cases hh : headRange first.start with
        | none =>
          rw [hh] at hres
          exact Option.noConfusion hres
        | some h =>
          cases hg : gapRanges (first :: rest) with
          | none =>
            rw [hh, hg] at hres
            exact Option.noConfusion hres
          | some g =>
            cases ht : tailRange
                ((first :: rest).getLast (List.cons_ne_nil first rest)).end_ with
            | none =>
              rw [hh, hg, ht] at hres
              exact Option.noConfusion hres
            | some t =>
              rw [hh, hg, ht] at hres
              injection hres with hres
              refine ⟨h, g, t, ?_, rfl, rfl, hres.symm⟩
              rw [List.head_cons]
              exact hh

/-- C9 witness: the theorem applied to the sorted singleton input
(Inclusive 1.2.3, Unbounded), whose output is the single head range
(None, Some 1.2.3). -/
theorem head_tail_emission_spec_witness :
    ∃ h g t,
      headRange (([⟨Bound.Inclusive ⟨1,2,3,[]⟩, Bound.Unbounded⟩] :
        List UnaffectedRange).head (by decide)).start = some h ∧
      gapRanges [⟨Bound.Inclusive ⟨1,2,3,[]⟩, Bound.Unbounded⟩] = some g ∧
      tailRange (([⟨Bound.Inclusive ⟨1,2,3,[]⟩, Bound.Unbounded⟩] :
        List UnaffectedRange).getLast (by decide)).end_ = some t ∧
      [(⟨none, some ⟨1,2,3,[]⟩⟩ : OsvRange)] = h ++ g ++ t :=
  head_tail_emission_spec.1 [⟨Bound.Inclusive ⟨1,2,3,[]⟩, Bound.Unbounded⟩]
    (by decide) [⟨none, some ⟨1,2,3,[]⟩⟩] (by decide) (by decide)

end VersionRanges
